import Mathlib

/-!
# Verification of the gambit classification and metric engines

Shallow embedding of `src/gambit/classify.py` (taxonomy matching, consensus
reconciliation and the classifier) together with a spec-modelled embedding of
the metric engine (`gambit/metric.py` is not part of the sources, only its
tests are).  Distances are modelled as exact rationals, Python lists as Lean
lists, Python sets as duplicate-free Lean lists.
-/

set_option autoImplicit false

namespace Gambit

/-! ## Definitions -/

/-- Modelled from the spec (§3, §6): the per-node attributes of a taxonomy
node (`gambit/db/models.py` is not in `src/`): an optional classification
`distance_threshold`, a `report` flag and a short display name. -/
structure TaxonData where
  name : String
  distance_threshold : Option Rat
  report : Bool
deriving DecidableEq

/-- Modelled from the spec (§3): a `Taxon` is a node in a rooted taxonomy
forest, identified by its path of node data from itself up to its root
(`gambit/db/models.py` is not in `src/`).  The parent of `⟨d :: rest⟩` is
`⟨rest⟩`; a node with a singleton chain is a root. -/
structure Taxon where
  chain : List TaxonData
  chain_ne : chain ≠ []

instance : DecidableEq Taxon := fun a b =>
  decidable_of_iff (a.chain = b.chain) (by cases a; cases b; simp)

instance : Inhabited Taxon := ⟨⟨[⟨"", none, false⟩], by simp⟩⟩

/-- The data stored at the node itself (head of the chain). -/
def Taxon.dataOf (t : Taxon) : TaxonData := t.chain.head t.chain_ne

def Taxon.distance_threshold (t : Taxon) : Option Rat := t.dataOf.distance_threshold

def Taxon.shortRepr (t : Taxon) : String := t.dataOf.name

/-- All suffix-nodes of a chain, most specific first: the lazy ancestor
sequence of the spec (§6), self first, root last. -/
def chainAncestors : (l : List TaxonData) → List Taxon
  | [] => []
  | d :: rest => ⟨d :: rest, by simp⟩ :: chainAncestors rest

/-- `Taxon.ancestors t incself`: the ancestor sequence of `t`, from `t`
itself (if `incself`) up to the root — `t.ancestors(incself=...)` in the
source. -/
def Taxon.ancestors (t : Taxon) (incself : Bool) : List Taxon :=
  if incself then chainAncestors t.chain else (chainAncestors t.chain).tail

/-- Python's `list.index(a)`: index of the first occurrence, `none` when the
element is absent (the source catches the `ValueError`). -/
def indexInList {α : Type} [DecidableEq α] (a : α) : List α → Option Nat
  | [] => none
  | x :: rest => if x = a then some 0 else (indexInList a rest).map (· + 1)

/-- The inner `for a in taxon.ancestors(incself=False)` scan of
`consensus_taxon`: the first proper ancestor present in the trunk, together
with its trunk index. -/
def firstAncIndex (trunk : List Taxon) : List Taxon → Option (Taxon × Nat)
  | [] => none
  | a :: rest =>
    match indexInList a trunk with
    | some i => some (a, i)
    | none => firstAncIndex trunk rest

/-- Python's `set.add`, on the duplicate-free-list model of a set. -/
def setAdd {α : Type} [DecidableEq α] (l : List α) (x : α) : List α :=
  if x ∈ l then l else l ++ [x]

/-- The state-updating loop of `consensus_taxon` (the `for taxon in taxa[1:]`
loop).  `taxa` is the full original input (needed for the
`return (None, set(taxa))` branch); the crown set is modelled as a
duplicate-free list. -/
def consensusLoop (taxa : List Taxon) :
    List Taxon → List Taxon → List Taxon → Option Taxon × List Taxon
  | trunk, [], crown => (trunk.head?, crown)
  | trunk, taxon :: rest, crown =>
    if taxon ∈ trunk then
      consensusLoop taxa trunk rest crown
    else
      match firstAncIndex trunk (taxon.ancestors false) with
      | none => (none, taxa.dedup)
      | some (_, i) =>
        if i = 0 then
          consensusLoop taxa (taxon.ancestors true) rest crown
        else
          consensusLoop taxa (trunk.drop i) rest (setAdd (setAdd crown trunk.headI) taxon)

/-- `consensus_taxon` from src/gambit/classify.py: consensus taxon for a
collection of matched taxa, plus the crown set (as a duplicate-free list). -/
def consensus_taxon (taxa : List Taxon) : Option Taxon × List Taxon :=
  match taxa with
  | [] => (none, [])
  | t0 :: rest => consensusLoop taxa (t0.ancestors true) rest []

/-- Existence of a mutually inconsistent pair of taxa in a list. -/
def IncompPair (L : List Taxon) : Prop :=
  ∃ t1 ∈ L, ∃ t2 ∈ L, t1 ∉ t2.ancestors true ∧ t2 ∉ t1.ancestors true

/-- `matching_taxon` from src/gambit/classify.py: first taxon in the lineage
whose `distance_threshold` is defined and at least `d`. -/
def matching_taxon (taxon : Taxon) (d : Rat) : Option Taxon :=
  (taxon.ancestors true).find? (fun t =>
    match t.distance_threshold with
    | some th => decide (d ≤ th)
    | none => false)

/-- Modelled from the spec (§3, §6): a reference genome exposes its assigned
taxon and a description string (`gambit/db/models.py` is not in `src/`). -/
structure AnnotatedGenome where
  description : String
  taxon : Taxon
deriving DecidableEq

/-- `matches.setdefault(match, []).append(i)`: append index `i` to the entry
of taxon `t`, creating the entry at the end in insertion order. -/
def addMatch (m : List (Taxon × List Nat)) (t : Taxon) (i : Nat) :
    List (Taxon × List Nat) :=
  match m with
  | [] => [(t, [i])]
  | (t', idxs) :: rest =>
    if t' = t then (t', idxs ++ [i]) :: rest else (t', idxs) :: addMatch rest t i

/-- `find_matches` from src/gambit/classify.py: group original input positions
by matched taxon, skipping pairs with no match (dict modelled as an
insertion-ordered association list). -/
def find_matches (pairs : List (AnnotatedGenome × Rat)) : List (Taxon × List Nat) :=
  pairs.enum.foldl
    (fun m p =>
      match matching_taxon p.2.1.taxon p.2.2 with
      | some t => addMatch m t p.1
      | none => m)
    []

/-- `GenomeMatch` from src/gambit/classify.py. -/
structure GenomeMatch where
  genome : AnnotatedGenome
  distance : Rat
  matched_taxon : Option Taxon
deriving DecidableEq

/-- `ClassifierResult` from src/gambit/classify.py. -/
structure ClassifierResult where
  success : Bool
  predicted_taxon : Option Taxon
  primary_match : Option GenomeMatch
  closest_match : GenomeMatch
  warnings : List String
  error : Option String
deriving DecidableEq

/-- The scan underlying `np.argmin`: current best index, current best value,
position of the next element. Ties keep the earlier index. -/
def argminLoop : Nat → Rat → Nat → List Rat → Nat
  | best, _, _, [] => best
  | best, bestd, k, d :: rest =>
    if d < bestd then argminLoop k d (k + 1) rest else argminLoop best bestd (k + 1) rest

/-- `np.argmin`: index of the first minimum; empty input is an error in
NumPy, modelled as `none`. -/
def argmin : List Rat → Option Nat
  | [] => none
  | d :: rest => some (argminLoop 0 d 1 rest)

/-- The primary-match selection loop of `classify` (lines 256-269): running
best `(index, distance, taxon)` over one matched group.  `dists[i]` is
modelled with a default since all indices produced by `find_matches` are in
range. -/
def bestUpdate (dists : List Rat) (acc : Option (Nat × Rat × Taxon))
    (taxon : Taxon) (i : Nat) : Option (Nat × Rat × Taxon) :=
  match acc with
  | none => some (i, dists.getD i 0, taxon)
  | some (bi, bd, bt) =>
    if dists.getD i 0 < bd then some (i, dists.getD i 0, taxon) else some (bi, bd, bt)

/-- The outer primary-match selection over all matched groups, skipping
groups whose taxon does not have the consensus among its ancestors-or-self. -/
def selectBest (dists : List Rat) (consensus : Taxon)
    (ms : List (Taxon × List Nat)) : Option (Nat × Rat × Taxon) :=
  ms.foldl
    (fun acc p =>
      if consensus ∈ p.1.ancestors true then
        p.2.foldl (fun acc2 i => bestUpdate dists acc2 p.1 i) acc
      else acc)
    none

/-- `classify` from src/gambit/classify.py.  Python exceptions (`np.argmin`
on an empty array, `zip_strict` length mismatch, the `assert`, indexing
errors) are modelled as `Except.error`. -/
def classify (ref_genomes : List AnnotatedGenome) (dists : List Rat)
    (strict : Bool) : Except String ClassifierResult :=
  match argmin dists with
  | none => .error "ValueError: attempt to get argmin of an empty sequence"
  | some closest =>
    match ref_genomes.get? closest, dists.get? closest with
    | some g, some dc =>
      let closest_match : GenomeMatch := ⟨g, dc, matching_taxon g.taxon dc⟩
      if strict = false then
        .ok ⟨true, closest_match.matched_taxon,
          if closest_match.matched_taxon ≠ none then some closest_match else none,
          closest_match, [], none⟩
      else if ref_genomes.length ≠ dists.length then
        .error "zip_strict: iterables have different lengths"
      else
        let ms := find_matches (ref_genomes.zip dists)
        let cons := consensus_taxon (ms.map Prod.fst)
        if ms = [] then
          .ok ⟨true, none, none, closest_match, [], none⟩
        else
          let primary : Except String (Option GenomeMatch) :=
            match cons.1 with
            | none => .ok none
            | some consensus =>
              match selectBest dists consensus ms with
              | none => .error "AssertionError: best_i is not None"
              | some (bi, bd, bt) =>
                match ref_genomes.get? bi with
                | none => .error "IndexError: list index out of range"
                | some gb => .ok (some ⟨gb, bd, some bt⟩)
          match primary with
          | .error e => .error e
          | .ok primary_match =>
            let warnings1 : List String :=
              if cons.2 ≠ [] then
                ["Query matched " ++ toString cons.2.length ++ " inconsistent taxa: " ++
                  String.intercalate ", " (cons.2.map Taxon.shortRepr) ++
                  ". Reporting lowest common ancestor of this set."]
              else []
            let warnings2 : List String :=
              warnings1 ++
                (match primary_match with
                 | some pm =>
                   if pm.genome ≠ closest_match.genome then
                     ["Primary genome match is not closest match."]
                   else []
                 | none => [])
            let err : Option String :=
              if cons.1 = none then some "Matched taxa have no common ancestor." else none
            .ok ⟨cons.1.isSome, cons.1, primary_match, closest_match, warnings2, err⟩
    | _, _ => .error "IndexError: list index out of range"

/-- Modelled from the spec: the linear merge-scan over two sorted signatures,
returning the shared `(intersection, union)` counts that both `jaccard` and
`jaccarddist` are derived from. -/
def jaccardCounts : List Nat → List Nat → Nat × Nat
  | [], [] => (0, 0)
  | [], _ :: bs =>
    let p := jaccardCounts [] bs
    (p.1, p.2 + 1)
  | _ :: as, [] =>
    let p := jaccardCounts as []
    (p.1, p.2 + 1)
  | a :: as, b :: bs =>
    if a = b then
      let p := jaccardCounts as bs
      (p.1 + 1, p.2 + 1)
    else if a < b then
      let p := jaccardCounts as (b :: bs)
      (p.1, p.2 + 1)
    else
      let p := jaccardCounts (a :: as) bs
      (p.1, p.2 + 1)
termination_by a b => a.length + b.length

/-- Modelled from the spec: `jaccarddist(a, b) = 1 - |a ∩ b| / |a ∪ b|`,
with the two-empty-sets policy of §9 (distance `0`). -/
def jaccarddist (a b : List Nat) : Rat :=
  let p := jaccardCounts a b
  if p.2 = 0 then 0 else 1 - (p.1 : Rat) / (p.2 : Rat)

/-- Modelled from the spec and the comment in `src/tests/test_metric.py`
(lines 87-88): `jaccard()` is calculated as `1 - jaccarddist()`, sharing the
same counts. -/
def jaccard (a b : List Nat) : Rat := 1 - jaccarddist a b

/-- Modelled from the spec: one query against every reference. -/
def jaccarddist_array (query : List Nat) (refs : List (List Nat)) : List Rat :=
  refs.map (fun r => jaccarddist query r)

/-- Modelled from the spec: partition of a list into contiguous chunks of
size `n` (the last chunk may be shorter). -/
def chunksOf {α : Type} (n : Nat) (l : List α) : List (List α) :=
  if h : n = 0 ∨ l.length = 0 then [] else l.take n :: chunksOf n (l.drop n)
termination_by l.length
decreasing_by
  push_neg at h
  obtain ⟨hn, hl⟩ := h
  simp only [List.length_drop]
  omega

/-- Modelled from the spec: `jaccarddist_matrix` — all-pairs distances for
the queries against either all references or an ordered subset of reference
indices, with the reference axis optionally partitioned into contiguous
chunks processed independently and the per-chunk results concatenated. -/
def jaccarddist_matrix (queries refs : List (List Nat))
    (ref_indices : Option (List Nat)) (chunksize : Option Nat) : List (List Rat) :=
  let cols : List (List Nat) :=
    match ref_indices with
    | some idxs => idxs.map (fun i => refs.getD i [])
    | none => refs
  let colChunks : List (List (List Nat)) :=
    match chunksize with
    | none => [cols]
    | some cs => chunksOf cs cols
  queries.map (fun q => (colChunks.map (fun ch => ch.map (fun r => jaccarddist q r))).flatten)

/-- Modelled from the spec: a value stored at an integer width of `nb` bytes,
as its little-endian byte pattern. -/
def encodeLE : Nat → Nat → List Nat
  | 0, _ => []
  | nb + 1, v => (v % 256) :: encodeLE nb (v / 256)

/-- The logical value of a little-endian byte pattern. -/
def decodeLE : List Nat → Nat
  | [] => 0
  | b :: rest => b + 256 * decodeLE rest

/-- A signature stored at width `nb` bytes: each element as its byte
pattern. -/
def encodeSig (nb : Nat) (s : List Nat) : List (List Nat) := s.map (encodeLE nb)

/-- The logical k-mer set represented by a stored signature. -/
def decodeSig (stored : List (List Nat)) : List Nat := stored.map decodeLE

/-- Modelled from the spec: distance between two stored signatures of
possibly different widths, comparing values logically rather than by byte
pattern. -/
def jaccarddistStored (a b : List (List Nat)) : Rat :=
  jaccarddist (decodeSig a) (decodeSig b)

/-- Stored-signature variant of `jaccarddist_array`. -/
def jaccarddist_array_stored (query : List (List Nat))
    (refs : List (List (List Nat))) : List Rat :=
  refs.map (fun r => jaccarddistStored query r)

/-- Stored-signature variant of `jaccarddist_matrix` (no subsetting or
chunking, which are orthogonal to storage width). -/
def jaccarddist_matrix_stored (queries refs : List (List (List Nat))) :
    List (List Rat) :=
  queries.map (fun q => refs.map (fun r => jaccarddistStored q r))

inductive PyObj where
  | taxonObj (t : Taxon)
  | genomeObj (g : AnnotatedGenome)

/-- Dynamic lookup of the `ancestors` attribute: `Taxon` provides it; an
`AnnotatedGenome` exposes only its assigned taxon and a description (spec §6,
`gambit/db/models.py` not in `src/`), so lookup raises. -/
def PyObj.ancestorsAttr : PyObj → Bool → Except String (List Taxon)
  | .taxonObj t, incself => .ok (t.ancestors incself)
  | .genomeObj _, _ =>
    .error "AttributeError: AnnotatedGenome object has no attribute ancestors"

/-- `matching_taxon` under dynamic typing: evaluate `taxon.ancestors(incself=True)`
on whatever object was passed, then scan for the first threshold match. -/
def matching_taxon_dyn (obj : PyObj) (d : Rat) : Except String (Option Taxon) :=
  (obj.ancestorsAttr true).map (fun ancs =>
    ancs.find? (fun t =>
      match t.distance_threshold with
      | some th => decide (d ≤ th)
      | none => false))

/-- The `matched_taxon` default of `GenomeMatch` exactly as written in the
source: `matching_taxon(self.genome, self.distance)`. -/
def genomeMatchMatchedTaxonDefault (g : AnnotatedGenome) (d : Rat) :
    Except String (Option Taxon) :=
  matching_taxon_dyn (.genomeObj g) d

deriving instance DecidableEq for Except

/-! ### Concrete test fixtures

The taxonomy of the spec's test properties (§8): lineage `Root → A → {A1, A2}`
with thresholds `A1 = A2 = 10`, `A = 30`, plus an unrelated root `B`, and
reference genomes `g1 : A1`, `g2 : A2`, `gB : B`. -/

def dRoot : TaxonData := ⟨"Root", none, true⟩

def dA : TaxonData := ⟨"A", some 30, true⟩

def dA1 : TaxonData := ⟨"A1", some 10, true⟩

def dA2 : TaxonData := ⟨"A2", some 10, true⟩

def dB : TaxonData := ⟨"B", some 100, false⟩

def tRoot : Taxon := ⟨[dRoot], by simp⟩

def tA : Taxon := ⟨[dA, dRoot], by simp⟩

def tA1 : Taxon := ⟨[dA1, dA, dRoot], by simp⟩

def tA2 : Taxon := ⟨[dA2, dA, dRoot], by simp⟩

def tB : Taxon := ⟨[dB], by simp⟩

def g1 : AnnotatedGenome := ⟨"g1", tA1⟩

def g2 : AnnotatedGenome := ⟨"g2", tA2⟩

def gB : AnnotatedGenome := ⟨"gB", tB⟩

/-! ## Theorems -/

theorem Taxon.eq_iff_chain {a b : Taxon} : a = b ↔ a.chain = b.chain := by
  cases a; cases b; simp

@[simp] theorem chainAncestors_nil : chainAncestors [] = [] := rfl

@[simp] theorem chainAncestors_cons (d : TaxonData) (rest : List TaxonData) :
    chainAncestors (d :: rest) = ⟨d :: rest, by simp⟩ :: chainAncestors rest := rfl

/-- Membership in the ancestor list is exactly the suffix relation between
chains. -/
theorem mem_chainAncestors_iff {u : Taxon} {l : List TaxonData} :
    u ∈ chainAncestors l ↔ u.chain <:+ l := by
  induction l with
  | nil =>
    simp only [chainAncestors_nil, List.not_mem_nil, false_iff]
    intro h
    exact u.chain_ne (List.suffix_nil.mp h)
  | cons d rest ih =>
    simp only [chainAncestors_cons, List.mem_cons, ih, List.suffix_cons_iff]
    constructor
    · rintro (h | h)
      · left; rw [h]
      · right; exact h
    · rintro (h | h)
      · left; exact Taxon.eq_iff_chain.mpr h
      · right; exact h

theorem mem_ancestorsSelf_iff {u t : Taxon} :
    u ∈ t.ancestors true ↔ u.chain <:+ t.chain := by
  simp [Taxon.ancestors, mem_chainAncestors_iff]

theorem self_mem_ancestorsSelf (t : Taxon) : t ∈ t.ancestors true :=
  mem_ancestorsSelf_iff.mpr (List.suffix_refl _)

theorem ancestorsSelf_eq_cons (t : Taxon) :
    t.ancestors true = t :: chainAncestors t.chain.tail := by
  obtain ⟨chain, hne⟩ := t
  cases chain with
  | nil => exact absurd rfl hne
  | cons d rest => simp [Taxon.ancestors]

@[simp] theorem head?_ancestorsSelf (t : Taxon) :
    (t.ancestors true).head? = some t := by
  rw [ancestorsSelf_eq_cons]; rfl

@[simp] theorem headI_ancestorsSelf (t : Taxon) :
    (t.ancestors true).headI = t := by
  rw [ancestorsSelf_eq_cons]; rfl

theorem ancestorsSelf_ne_nil (t : Taxon) : t.ancestors true ≠ [] := by
  rw [ancestorsSelf_eq_cons]; simp

/-- The proper-ancestor list is the ancestor list of the parent chain. -/
theorem ancestors_false_eq (t : Taxon) :
    t.ancestors false = chainAncestors t.chain.tail := by
  obtain ⟨chain, hne⟩ := t
  cases chain with
  | nil => exact absurd rfl hne
  | cons d rest => simp [Taxon.ancestors]

theorem mem_ancestors_false_iff {u t : Taxon} :
    u ∈ t.ancestors false ↔ u.chain <:+ t.chain.tail := by
  rw [ancestors_false_eq, mem_chainAncestors_iff]

/-- Dropping `i` ancestors yields the ancestor chain of the `i`-th ancestor. -/
theorem chainAncestors_drop (i : Nat) (l : List TaxonData) :
    (chainAncestors l).drop i = chainAncestors (l.drop i) := by
  induction i generalizing l with
  | zero => simp
  | succ n ih =>
    cases l with
    | nil => simp
    | cons d rest => simpa using ih rest

theorem chainAncestors_get? {i : Nat} {l : List TaxonData} {u : Taxon}
    (h : (chainAncestors l).get? i = some u) : u.chain = l.drop i := by
  induction i generalizing l with
  | zero =>
    cases l with
    | nil => simp at h
    | cons d rest =>
      simp only [chainAncestors_cons, List.get?_cons_zero, Option.some.injEq] at h
      rw [← h]
      rfl
  | succ n ih =>
    cases l with
    | nil => simp at h
    | cons d rest =>
      simp only [chainAncestors_cons, List.get?_cons_succ] at h
      exact ih h

/-- A proper suffix is a suffix of the tail. -/
theorem suffix_tail_of_proper {α : Type} {l₁ l₂ : List α}
    (h : l₁ <:+ l₂) (hne : l₁ ≠ l₂) : l₁ <:+ l₂.tail := by
  cases l₂ with
  | nil => simp_all [List.suffix_nil.mp h]
  | cons d rest =>
    rcases List.suffix_cons_iff.mp h with h' | h'
    · exact absurd h' hne
    · exact h'

/-- Ancestor-or-self as a relation on taxa: `a` is an ancestor of `t` or `t`
itself. -/
theorem ancestorsSelf_antisymm {a b : Taxon}
    (h₁ : a ∈ b.ancestors true) (h₂ : b ∈ a.ancestors true) : a = b := by
  rw [mem_ancestorsSelf_iff] at h₁ h₂
  exact Taxon.eq_iff_chain.mpr (h₁.sublist.antisymm h₂.sublist)

theorem ancestorsSelf_trans {a b c : Taxon}
    (h₁ : a ∈ b.ancestors true) (h₂ : b ∈ c.ancestors true) :
    a ∈ c.ancestors true := by
  rw [mem_ancestorsSelf_iff] at h₁ h₂ ⊢
  exact h₁.trans h₂

theorem indexInList_eq_none_iff {α : Type} [DecidableEq α] {a : α} {l : List α} :
    indexInList a l = none ↔ a ∉ l := by
  induction l with
  | nil => simp [indexInList]
  | cons x rest ih =>
    by_cases hx : x = a
    · simp [indexInList, hx]
    · simp only [indexInList, if_neg hx, Option.map_eq_none', ih, List.mem_cons]
      constructor
      · rintro h (h' | h')
        · exact hx h'.symm
        · exact h h'
      · intro h h'
        exact h (Or.inr h')

theorem indexInList_get? {α : Type} [DecidableEq α] {a : α} {l : List α} {i : Nat}
    (h : indexInList a l = some i) : l.get? i = some a := by
  induction l generalizing i with
  | nil => simp [indexInList] at h
  | cons x rest ih =>
    by_cases hx : x = a
    · simp only [indexInList, if_pos hx, Option.some.injEq] at h
      rw [← h, hx]
      rfl
    · simp only [indexInList, if_neg hx, Option.map_eq_some'] at h
      obtain ⟨j, hj, rfl⟩ := h
      simpa using ih hj

theorem indexInList_head {α : Type} [DecidableEq α] {a : α} {l : List α}
    (h : l.head? = some a) : indexInList a l = some 0 := by
  cases l with
  | nil => simp at h
  | cons x rest =>
    simp only [List.head?_cons, Option.some.injEq] at h
    simp [indexInList, h]

theorem indexInList_lt_length {α : Type} [DecidableEq α] {a : α} {l : List α} {i : Nat}
    (h : indexInList a l = some i) : i < l.length :=
  List.get?_eq_some.mp (indexInList_get? h) |>.1

theorem firstAncIndex_eq_none {trunk ancs : List Taxon}
    (h : firstAncIndex trunk ancs = none) : ∀ a ∈ ancs, a ∉ trunk := by
  induction ancs with
  | nil => simp
  | cons a rest ih =>
    intro b hb
    rw [firstAncIndex] at h
    rcases hidx : indexInList a trunk with _ | i
    · rw [hidx] at h
      rcases List.mem_cons.mp hb with rfl | hb'
      · exact indexInList_eq_none_iff.mp hidx
      · exact ih h b hb'
    · rw [hidx] at h
      exact absurd h (by simp)

theorem firstAncIndex_eq_some {trunk ancs : List Taxon} {a : Taxon} {i : Nat}
    (h : firstAncIndex trunk ancs = some (a, i)) :
    a ∈ ancs ∧ indexInList a trunk = some i := by
  induction ancs with
  | nil => simp [firstAncIndex] at h
  | cons b rest ih =>
    rw [firstAncIndex] at h
    rcases hidx : indexInList b trunk with _ | j
    · rw [hidx] at h
      obtain ⟨h1, h2⟩ := ih h
      exact ⟨List.mem_cons_of_mem _ h1, h2⟩
    · rw [hidx] at h
      simp only [Option.some.injEq, Prod.mk.injEq] at h
      obtain ⟨rfl, rfl⟩ := h
      exact ⟨List.mem_cons_self _ _, hidx⟩

@[simp] theorem mem_setAdd {α : Type} [DecidableEq α] {l : List α} {x y : α} :
    y ∈ setAdd l x ↔ y ∈ l ∨ y = x := by
  by_cases h : x ∈ l
  · simp only [setAdd, if_pos h]
    constructor
    · exact Or.inl
    · rintro (h' | rfl)
      · exact h'
      · exact h
  · simp [setAdd, if_neg h]

theorem setAdd_ne_nil {α : Type} [DecidableEq α] (l : List α) (x : α) :
    setAdd l x ≠ [] := by
  by_cases h : x ∈ l
  · rw [setAdd, if_pos h]
    intro hnil
    rw [hnil] at h
    simp at h
  · rw [setAdd, if_neg h]
    simp

theorem ancestors_false_subset {a t : Taxon} (h : a ∈ t.ancestors false) :
    a ∈ t.ancestors true := by
  rw [mem_ancestors_false_iff] at h
  exact mem_ancestorsSelf_iff.mpr (h.trans (List.tail_suffix _))

/-- Truncating the trunk at the index of a member yields that member's own
ancestor chain (the trunk is an ancestor chain). -/
theorem trunk_drop_eq {c a : Taxon} {i : Nat}
    (h : indexInList a (c.ancestors true) = some i) :
    (c.ancestors true).drop i = a.ancestors true ∧ a ∈ c.ancestors true := by
  have hget := indexInList_get? h
  have hchain : a.chain = c.chain.drop i := by
    apply chainAncestors_get?
    simpa [Taxon.ancestors] using hget
  constructor
  · simp only [Taxon.ancestors, if_pos]
    rw [chainAncestors_drop, ← hchain]
  · exact mem_ancestorsSelf_iff.mpr ⟨c.chain.take i, by rw [hchain]; simp⟩

/-- The scan over a taxon's proper ancestors: if the current consensus `c` is
a suffix of the scanned chain, the scan stops exactly at `c`, which sits at
trunk index `0`. -/
theorem firstAncIndex_of_suffix {c : Taxon} :
    ∀ l : List TaxonData, c.chain <:+ l →
    firstAncIndex (c.ancestors true) (chainAncestors l) = some (c, 0) := by
  intro l
  induction l with
  | nil =>
    intro h
    exact absurd (List.suffix_nil.mp h) c.chain_ne
  | cons d rest ih =>
    intro h
    rcases List.suffix_cons_iff.mp h with h' | h'
    · have hc : (⟨d :: rest, by simp⟩ : Taxon) = c := Taxon.eq_iff_chain.mpr h'.symm
      rw [chainAncestors_cons, firstAncIndex, hc,
        indexInList_head (head?_ancestorsSelf c)]
    · have hlen : rest.length < (d :: rest).length := by simp
      have hnot : (⟨d :: rest, by simp⟩ : Taxon) ∉ c.ancestors true := by
        intro hmem
        have h1 : (d :: rest) <:+ c.chain := mem_ancestorsSelf_iff.mp hmem
        have h2 : c.chain.length ≤ rest.length := h'.length_le
        have h3 : (d :: rest).length ≤ c.chain.length := h1.length_le
        omega
      rw [chainAncestors_cons, firstAncIndex,
        indexInList_eq_none_iff.mpr hnot]
      exact ih h'

/-- In the divergent (`i ≠ 0`) and no-common-ancestor branches the processed
taxon is incomparable with the current consensus. -/
theorem incomparable_of_scan_none {c taxon : Taxon}
    (hmem : taxon ∉ c.ancestors true)
    (hscan : firstAncIndex (c.ancestors true) (taxon.ancestors false) = none) :
    taxon ∉ c.ancestors true ∧ c ∉ taxon.ancestors true := by
  refine ⟨hmem, fun hc => ?_⟩
  have hne : c ≠ taxon := by
    rintro rfl
    exact hmem (self_mem_ancestorsSelf c)
  have hsuf : c.chain <:+ taxon.chain.tail :=
    suffix_tail_of_proper (mem_ancestorsSelf_iff.mp hc)
      (fun h => hne (Taxon.eq_iff_chain.mpr h))
  rw [ancestors_false_eq] at hscan
  rw [firstAncIndex_of_suffix taxon.chain.tail hsuf] at hscan
  exact absurd hscan (by simp)

theorem incomparable_of_scan_pos {c taxon a : Taxon} {i : Nat}
    (hmem : taxon ∉ c.ancestors true)
    (hscan : firstAncIndex (c.ancestors true) (taxon.ancestors false) = some (a, i))
    (hi : i ≠ 0) :
    taxon ∉ c.ancestors true ∧ c ∉ taxon.ancestors true := by
  refine ⟨hmem, fun hc => ?_⟩
  have hne : c ≠ taxon := by
    rintro rfl
    exact hmem (self_mem_ancestorsSelf c)
  have hsuf : c.chain <:+ taxon.chain.tail :=
    suffix_tail_of_proper (mem_ancestorsSelf_iff.mp hc)
      (fun h => hne (Taxon.eq_iff_chain.mpr h))
  rw [ancestors_false_eq] at hscan
  rw [firstAncIndex_of_suffix taxon.chain.tail hsuf] at hscan
  simp only [Option.some.injEq, Prod.mk.injEq] at hscan
  exact hi hscan.2.symm

/-- A `None` consensus can only come from the no-common-ancestor branch, and
there the crown is the whole (deduplicated) input. -/
theorem consensusLoop_none {taxa : List Taxon} :
    ∀ (rest : List Taxon) (c : Taxon) (crown : List Taxon) (crownF : List Taxon),
    consensusLoop taxa (c.ancestors true) rest crown = (none, crownF) →
    crownF = taxa.dedup := by
  intro rest
  induction rest with
  | nil =>
    intro c crown crownF h
    rw [consensusLoop, head?_ancestorsSelf] at h
    simp at h
  | cons taxon rest ih =>
    intro c crown crownF h
    rw [consensusLoop] at h
    by_cases hmem : taxon ∈ c.ancestors true
    · rw [if_pos hmem] at h
      exact ih c crown crownF h
    · rw [if_neg hmem] at h
      rcases hscan : firstAncIndex (c.ancestors true) (taxon.ancestors false) with _ | ⟨a, i⟩
      · rw [hscan] at h
        dsimp only at h
        simpa using (congrArg Prod.snd h).symm
      · rw [hscan] at h
        dsimp only at h
        by_cases hi : i = 0
        · rw [if_pos hi] at h
          exact ih taxon crown crownF h
        · rw [if_neg hi] at h
          obtain ⟨hdrop, _⟩ := trunk_drop_eq (firstAncIndex_eq_some hscan).2
          rw [hdrop] at h
          exact ih a _ crownF h

/-- Single-lineage invariant: when the loop finishes with an empty crown, the
final consensus is one of the remaining inputs (or the initial consensus),
every input processed is an ancestor-or-self of it, and the initial consensus
is as well. -/
theorem consensusLoop_crown_nil {taxa : List Taxon} (hta : taxa ≠ []) :
    ∀ (rest : List Taxon) (c : Taxon) (crown : List Taxon) (res : Option Taxon)
      (crownF : List Taxon),
    consensusLoop taxa (c.ancestors true) rest crown = (res, crownF) → crownF = [] →
    crown = [] ∧ ∃ c', res = some c' ∧ c ∈ c'.ancestors true ∧
      (∀ t ∈ rest, t ∈ c'.ancestors true) ∧ (c' = c ∨ c' ∈ rest) := by
  intro rest
  induction rest with
  | nil =>
    intro c crown res crownF h hF
    rw [consensusLoop, head?_ancestorsSelf] at h
    obtain ⟨h1, h2⟩ := Prod.mk.injEq _ _ _ _ ▸ h
    subst hF
    refine ⟨h2, c, h1.symm, self_mem_ancestorsSelf c, by simp, Or.inl rfl⟩
  | cons taxon rest ih =>
    intro c crown res crownF h hF
    rw [consensusLoop] at h
    by_cases hmem : taxon ∈ c.ancestors true
    · rw [if_pos hmem] at h
      obtain ⟨hcr, c', hres, hcc', hrest, hor⟩ := ih c crown res crownF h hF
      refine ⟨hcr, c', hres, hcc', ?_, ?_⟩
      · intro t ht
        rcases List.mem_cons.mp ht with rfl | ht'
        · exact ancestorsSelf_trans hmem hcc'
        · exact hrest t ht'
      · rcases hor with h' | h'
        · exact Or.inl h'
        · exact Or.inr (List.mem_cons_of_mem _ h')
    · rw [if_neg hmem] at h
      rcases hscan : firstAncIndex (c.ancestors true) (taxon.ancestors false) with _ | ⟨a, i⟩
      · rw [hscan] at h
        dsimp only at h
        have : crownF = taxa.dedup := by simpa using (congrArg Prod.snd h).symm
        rw [hF] at this
        exact absurd ((List.dedup_eq_nil taxa).mp this.symm) hta
      · rw [hscan] at h
        dsimp only at h
        obtain ⟨hanc, hidx⟩ := firstAncIndex_eq_some hscan
        by_cases hi : i = 0
        · rw [if_pos hi] at h
          obtain ⟨hcr, c', hres, hcc', hrest, hor⟩ := ih taxon crown res crownF h hF
          have ha_eq : a = c := by
            subst hi
            have hthis := indexInList_get? hidx
            rw [List.get?_zero, head?_ancestorsSelf] at hthis
            exact (Option.some_inj.mp hthis).symm
          have hc_taxon : c ∈ taxon.ancestors true := by
            rw [← ha_eq]
            exact ancestors_false_subset hanc
          refine ⟨hcr, c', hres, ancestorsSelf_trans hc_taxon hcc', ?_, ?_⟩
          · intro t ht
            rcases List.mem_cons.mp ht with rfl | ht'
            · exact ancestorsSelf_trans (self_mem_ancestorsSelf _) hcc'
            · exact hrest t ht'
          · rcases hor with h' | h'
            · exact Or.inr (h' ▸ List.mem_cons_self _ _)
            · exact Or.inr (List.mem_cons_of_mem _ h')
        · rw [if_neg hi] at h
          obtain ⟨hdrop, _⟩ := trunk_drop_eq hidx
          rw [hdrop] at h
          obtain ⟨hcr, _⟩ := ih a _ res crownF h hF
          exact absurd hcr (setAdd_ne_nil _ _)

/-- Two suffixes of the same list are comparable. -/
theorem suffix_total {α : Type} {l l₁ l₂ : List α}
    (h₁ : l₁ <:+ l) (h₂ : l₂ <:+ l) : l₁ <:+ l₂ ∨ l₂ <:+ l₁ := by
  induction l with
  | nil =>
    left
    rw [List.suffix_nil.mp h₁, List.suffix_nil.mp h₂]
  | cons a t ih =>
    rcases List.suffix_cons_iff.mp h₁ with rfl | h₁'
    · exact Or.inr h₂
    · rcases List.suffix_cons_iff.mp h₂ with rfl | h₂'
      · exact Or.inl h₁
      · exact ih h₁' h₂'

/-- The consensus produced by the loop is always an ancestor-or-self of at
least one input taxon. -/
theorem consensusLoop_some_reaches {taxa : List Taxon} :
    ∀ (rest : List Taxon) (c : Taxon) (crown : List Taxon) (c' : Taxon)
      (crownF : List Taxon),
    (∃ t ∈ taxa, c ∈ t.ancestors true) → (∀ t ∈ rest, t ∈ taxa) →
    consensusLoop taxa (c.ancestors true) rest crown = (some c', crownF) →
    ∃ t ∈ taxa, c' ∈ t.ancestors true := by
  intro rest
  induction rest with
  | nil =>
    intro c crown c' crownF hc hrest h
    rw [consensusLoop, head?_ancestorsSelf] at h
    have : c = c' := by simpa using congrArg Prod.fst h
    exact this ▸ hc
  | cons taxon rest ih =>
    intro c crown c' crownF hc hrest h
    have hrest' : ∀ t ∈ rest, t ∈ taxa := fun t ht => hrest t (List.mem_cons_of_mem _ ht)
    have htaxon : taxon ∈ taxa := hrest taxon (List.mem_cons_self _ _)
    rw [consensusLoop] at h
    by_cases hmem : taxon ∈ c.ancestors true
    · rw [if_pos hmem] at h
      exact ih c crown c' crownF hc hrest' h
    · rw [if_neg hmem] at h
      rcases hscan : firstAncIndex (c.ancestors true) (taxon.ancestors false) with _ | ⟨a, i⟩
      · rw [hscan] at h
        dsimp only at h
        simp at h
      · rw [hscan] at h
        dsimp only at h
        obtain ⟨hanc, hidx⟩ := firstAncIndex_eq_some hscan
        by_cases hi : i = 0
        · rw [if_pos hi] at h
          exact ih taxon crown c' crownF
            ⟨taxon, htaxon, self_mem_ancestorsSelf taxon⟩ hrest' h
        · rw [if_neg hi] at h
          obtain ⟨hdrop, _⟩ := trunk_drop_eq hidx
          rw [hdrop] at h
          exact ih a _ c' crownF
            ⟨taxon, htaxon, ancestors_false_subset hanc⟩ hrest' h

/-- A non-empty final crown witnesses a mutually inconsistent pair of input
taxa. -/
theorem consensusLoop_crown_ne_nil {taxa : List Taxon} :
    ∀ (rest : List Taxon) (c : Taxon) (crown : List Taxon) (res : Option Taxon)
      (crownF : List Taxon),
    (crown = [] → c ∈ taxa) →
    (crown ≠ [] → IncompPair taxa) →
    (∀ t ∈ rest, t ∈ taxa) →
    consensusLoop taxa (c.ancestors true) rest crown = (res, crownF) →
    crownF ≠ [] → IncompPair taxa := by
  intro rest
  induction rest with
  | nil =>
    intro c crown res crownF hcin hne hrest h hF
    rw [consensusLoop, head?_ancestorsSelf] at h
    have : crown = crownF := by simpa using congrArg Prod.snd h
    exact hne (this ▸ hF)
  | cons taxon rest ih =>
    intro c crown res crownF hcin hne hrest h hF
    have hrest' : ∀ t ∈ rest, t ∈ taxa := fun t ht => hrest t (List.mem_cons_of_mem _ ht)
    have htaxon : taxon ∈ taxa := hrest taxon (List.mem_cons_self _ _)
    rw [consensusLoop] at h
    by_cases hmem : taxon ∈ c.ancestors true
    · rw [if_pos hmem] at h
      exact ih c crown res crownF hcin hne hrest' h hF
    · rw [if_neg hmem] at h
      rcases hscan : firstAncIndex (c.ancestors true) (taxon.ancestors false) with _ | ⟨a, i⟩
      · rw [hscan] at h
        dsimp only at h
        obtain ⟨hpair1, hpair2⟩ := incomparable_of_scan_none hmem hscan
        by_cases hcr : crown = []
        · exact ⟨c, hcin hcr, taxon, htaxon, hpair2, hpair1⟩
        · exact hne hcr
      · rw [hscan] at h
        dsimp only at h
        obtain ⟨hanc, hidx⟩ := firstAncIndex_eq_some hscan
        by_cases hi : i = 0
        · rw [if_pos hi] at h
          exact ih taxon crown res crownF (fun _ => htaxon) hne hrest' h hF
        · rw [if_neg hi] at h
          obtain ⟨hdrop, _⟩ := trunk_drop_eq hidx
          rw [hdrop] at h
          obtain ⟨hpair1, hpair2⟩ := incomparable_of_scan_pos hmem hscan hi
          have hpair : IncompPair taxa := by
            by_cases hcr : crown = []
            · exact ⟨c, hcin hcr, taxon, htaxon, hpair2, hpair1⟩
            · exact hne hcr
          exact ih a _ res crownF (fun h' => absurd h' (setAdd_ne_nil _ _))
            (fun _ => hpair) hrest' h hF

/-- When `consensus_taxon` returns a consensus with an empty crown, the
consensus is one of the inputs, every input is an ancestor-or-self of it,
and it is the lowest taxon below all inputs. -/
theorem consensus_taxon_lineage_aux {taxa : List Taxon} {c : Taxon}
    (hne : taxa ≠ []) (h : consensus_taxon taxa = (some c, [])) :
    c ∈ taxa ∧ (∀ t ∈ taxa, t ∈ c.ancestors true) := by
  cases taxa with
  | nil => exact absurd rfl hne
  | cons t0 rest =>
    rw [consensus_taxon] at h
    obtain ⟨-, c', hres, hcc', hrest, hor⟩ :=
      consensusLoop_crown_nil hne rest t0 [] (some c) [] h rfl
    have hc : c' = c := by simpa using hres.symm
    subst hc
    constructor
    · rcases hor with rfl | h'
      · exact List.mem_cons_self _ _
      · exact List.mem_cons_of_mem _ h'
    · intro t ht
      rcases List.mem_cons.mp ht with rfl | ht'
      · exact hcc'
      · exact hrest t ht'

theorem argminLoop_spec (rest : List Rat) :
    ∀ (best k : Nat) (bestd : Rat),
    (argminLoop best bestd k rest = best ∧ ∀ d ∈ rest, bestd ≤ d) ∨
    (∃ j, j < rest.length ∧ argminLoop best bestd k rest = k + j ∧
      ∃ dj, rest.get? j = some dj ∧ dj < bestd ∧ ∀ d ∈ rest, dj ≤ d) := by
  induction rest with
  | nil => intro best k bestd; left; exact ⟨rfl, by simp⟩
  | cons d rest ih =>
    intro best k bestd
    by_cases hd : d < bestd
    · rw [argminLoop, if_pos hd]
      rcases ih k (k + 1) d with ⟨hr, hall⟩ | ⟨j, hj, hr, dj, hget, hdj, hall⟩
      · right
        refine ⟨0, by simp, by simpa using hr, d, rfl, hd, ?_⟩
        intro d' hd'
        rcases List.mem_cons.mp hd' with rfl | h'
        · exact le_refl _
        · exact hall d' h'
      · right
        refine ⟨j + 1, by simpa using hj, by rw [hr]; omega, dj, by simpa using hget,
          hdj.trans hd, ?_⟩
        intro d' hd'
        rcases List.mem_cons.mp hd' with rfl | h'
        · exact hdj.le
        · exact hall d' h'
    · rw [argminLoop, if_neg hd]
      push_neg at hd
      rcases ih best (k + 1) bestd with ⟨hr, hall⟩ | ⟨j, hj, hr, dj, hget, hdj, hall⟩
      · left
        refine ⟨hr, ?_⟩
        intro d' hd'
        rcases List.mem_cons.mp hd' with rfl | h'
        · exact hd
        · exact hall d' h'
      · right
        refine ⟨j + 1, by simpa using hj, by rw [hr]; omega, dj, by simpa using hget,
          hdj, ?_⟩
        intro d' hd'
        rcases List.mem_cons.mp hd' with rfl | h'
        · exact hdj.le.trans hd
        · exact hall d' h'

/-- On a non-empty list, `argmin` returns the index of a minimal element. -/
theorem argmin_spec {l : List Rat} {i : Nat} (h : argmin l = some i) :
    i < l.length ∧ ∃ d, l.get? i = some d ∧ ∀ d' ∈ l, d ≤ d' := by
  cases l with
  | nil => simp [argmin] at h
  | cons d0 rest =>
    rw [argmin, Option.some_inj] at h
    rcases argminLoop_spec rest 0 1 d0 with ⟨hr, hall⟩ | ⟨j, hj, hr, dj, hget, hdj, hall⟩
    · rw [hr] at h
      subst h
      refine ⟨by simp, d0, rfl, ?_⟩
      intro d' hd'
      rcases List.mem_cons.mp hd' with rfl | h'
      · exact le_refl _
      · exact hall d' h'
    · rw [hr] at h
      subst h
      refine ⟨by simp; omega, dj, by simpa [Nat.add_comm] using hget, ?_⟩
      intro d' hd'
      rcases List.mem_cons.mp hd' with rfl | h'
      · exact hdj.le
      · exact hall d' h'

theorem argmin_isSome {l : List Rat} (h : l ≠ []) : ∃ i, argmin l = some i := by
  cases l with
  | nil => exact absurd rfl h
  | cons d rest => exact ⟨_, rfl⟩

theorem addMatch_forall {P : Taxon → List Nat → Prop} :
    ∀ (m : List (Taxon × List Nat)) (t : Taxon) (i : Nat),
    (∀ p ∈ m, P p.1 p.2) → P t [i] →
    (∀ t' idxs, P t' idxs → P t' (idxs ++ [i])) →
    ∀ p ∈ addMatch m t i, P p.1 p.2 := by
  intro m
  induction m with
  | nil =>
    intro t i _ hnew _ p hp
    rw [addMatch] at hp
    rcases List.mem_singleton.mp hp with rfl
    exact hnew
  | cons q rest ih =>
    intro t i hm hnew hext p hp
    obtain ⟨t', idxs⟩ := q
    rw [addMatch] at hp
    by_cases ht : t' = t
    · rw [if_pos ht] at hp
      rcases List.mem_cons.mp hp with rfl | hp'
      · exact hext t' idxs (hm (t', idxs) (List.mem_cons_self _ _))
      · exact hm p (List.mem_cons_of_mem _ hp')
    · rw [if_neg ht] at hp
      rcases List.mem_cons.mp hp with rfl | hp'
      · exact hm (t', idxs) (List.mem_cons_self _ _)
      · exact ih t i (fun p' hp'' => hm p' (List.mem_cons_of_mem _ hp'')) hnew hext p hp'

theorem foldl_matches_forall {P : Taxon → List Nat → Prop} {N : Nat}
    (hnewP : ∀ t i, i < N → P t [i])
    (hextP : ∀ t idxs i, i < N → P t idxs → P t (idxs ++ [i])) :
    ∀ (l : List (Nat × (AnnotatedGenome × Rat))) (m0 : List (Taxon × List Nat)),
    (∀ p ∈ m0, P p.1 p.2) → (∀ q ∈ l, q.1 < N) →
    ∀ p ∈ l.foldl
        (fun m q =>
          match matching_taxon q.2.1.taxon q.2.2 with
          | some t => addMatch m t q.1
          | none => m) m0,
      P p.1 p.2 := by
  intro l
  induction l with
  | nil => intro m0 hm0 _ p hp; exact hm0 p hp
  | cons q rest ih =>
    intro m0 hm0 hidx p hp
    have hq : q.1 < N := hidx q (List.mem_cons_self _ _)
    have hidx' : ∀ q' ∈ rest, q'.1 < N := fun q' h' => hidx q' (List.mem_cons_of_mem _ h')
    rw [List.foldl_cons] at hp
    rcases hmt : matching_taxon q.2.1.taxon q.2.2 with _ | t
    · rw [hmt] at hp
      exact ih m0 hm0 hidx' p hp
    · rw [hmt] at hp
      refine ih _ ?_ hidx' p hp
      exact addMatch_forall m0 t q.1 hm0 (hnewP t q.1 hq) (fun t' idxs h' => hextP t' idxs q.1 hq h')

theorem mem_enum_fst_lt {α : Type} : ∀ (l : List α) (q : Nat × α), q ∈ l.enum → q.1 < l.length := by
  intro l q hq
  rw [List.mem_enum_iff_getElem?] at hq
  exact (List.getElem?_eq_some.mp hq).1

/-- Every group produced by `find_matches` is non-empty and all its indices
are in range. -/
theorem find_matches_spec (pairs : List (AnnotatedGenome × Rat)) :
    ∀ p ∈ find_matches pairs, p.2 ≠ [] ∧ ∀ i ∈ p.2, i < pairs.length := by
  intro p hp
  rw [find_matches] at hp
  refine foldl_matches_forall (N := pairs.length)
    (P := fun _ idxs => idxs ≠ [] ∧ ∀ i ∈ idxs, i < pairs.length)
    (fun t i hi => ⟨by simp, by simpa using hi⟩)
    (fun t idxs i hi h' => ⟨by simp, fun j hj => ?_⟩)
    pairs.enum [] (by simp) (fun q hq => mem_enum_fst_lt pairs q hq) p hp
  rcases List.mem_append.mp hj with h'' | h''
  · exact h'.2 j h''
  · rw [List.mem_singleton.mp h'']
    exact hi

theorem bestUpdate_isSome (dists : List Rat) (acc : Option (Nat × Rat × Taxon))
    (t : Taxon) (i : Nat) : (bestUpdate dists acc t i).isSome := by
  rcases acc with _ | ⟨bi, bd, bt⟩
  · rfl
  · rw [bestUpdate]
    split <;> rfl

theorem foldl_bestUpdate_isSome (dists : List Rat) (t : Taxon) :
    ∀ (idxs : List Nat) (acc : Option (Nat × Rat × Taxon)),
    acc.isSome ∨ idxs ≠ [] →
    (idxs.foldl (fun a i => bestUpdate dists a t i) acc).isSome := by
  intro idxs
  induction idxs with
  | nil =>
    intro acc h
    rcases h with h | h
    · exact h
    · exact absurd rfl h
  | cons i rest ih =>
    intro acc _
    rw [List.foldl_cons]
    exact ih _ (Or.inl (bestUpdate_isSome dists acc t i))

theorem selectBest_isSome {dists : List Rat} {consensus : Taxon} :
    ∀ (ms : List (Taxon × List Nat)) (acc : Option (Nat × Rat × Taxon)),
    (∃ p ∈ ms, consensus ∈ p.1.ancestors true ∧ p.2 ≠ []) ∨ acc.isSome →
    (ms.foldl
      (fun acc p =>
        if consensus ∈ p.1.ancestors true then
          p.2.foldl (fun acc2 i => bestUpdate dists acc2 p.1 i) acc
        else acc) acc).isSome := by
  intro ms
  induction ms with
  | nil =>
    intro acc h
    rcases h with ⟨p, hp, _⟩ | h
    · simp at hp
    · exact h
  | cons q rest ih =>
    intro acc h
    rw [List.foldl_cons]
    rcases h with ⟨p, hp, hcond, hne⟩ | hsome
    · rcases List.mem_cons.mp hp with rfl | hp'
      · rw [if_pos hcond]
        exact ih _ (Or.inr (foldl_bestUpdate_isSome dists p.1 p.2 acc (Or.inr hne)))
      · refine ih _ (Or.inl ⟨p, hp', hcond, hne⟩)
    · refine ih _ (Or.inr ?_)
      split
      · exact foldl_bestUpdate_isSome dists q.1 q.2 acc (Or.inl hsome)
      · exact hsome

theorem foldl_bestUpdate_bound {dists : List Rat} {t : Taxon} {N : Nat} :
    ∀ (idxs : List Nat) (acc : Option (Nat × Rat × Taxon)),
    (∀ bi bd bt, acc = some (bi, bd, bt) → bi < N) →
    (∀ i ∈ idxs, i < N) →
    ∀ bi bd bt,
      idxs.foldl (fun a i => bestUpdate dists a t i) acc = some (bi, bd, bt) → bi < N := by
  intro idxs
  induction idxs with
  | nil => intro acc hacc _ bi bd bt h; exact hacc bi bd bt h
  | cons i rest ih =>
    intro acc hacc hidx bi bd bt h
    rw [List.foldl_cons] at h
    refine ih _ ?_ (fun j hj => hidx j (List.mem_cons_of_mem _ hj)) bi bd bt h
    intro bi' bd' bt' h'
    have hi : i < N := hidx i (List.mem_cons_self _ _)
    rcases acc with _ | ⟨ci, cd, ct⟩
    · rw [bestUpdate] at h'
      simp only [Option.some.injEq, Prod.mk.injEq] at h'
      omega
    · rw [bestUpdate] at h'
      split at h'
      · simp only [Option.some.injEq, Prod.mk.injEq] at h'
        omega
      · simp only [Option.some.injEq, Prod.mk.injEq] at h'
        have := hacc ci cd ct rfl
        omega

theorem selectBest_bound {dists : List Rat} {consensus : Taxon} {N : Nat} :
    ∀ (ms : List (Taxon × List Nat)) (acc : Option (Nat × Rat × Taxon)),
    (∀ bi bd bt, acc = some (bi, bd, bt) → bi < N) →
    (∀ p ∈ ms, ∀ i ∈ p.2, i < N) →
    ∀ bi bd bt,
      ms.foldl
        (fun acc p =>
          if consensus ∈ p.1.ancestors true then
            p.2.foldl (fun acc2 i => bestUpdate dists acc2 p.1 i) acc
          else acc) acc = some (bi, bd, bt) → bi < N := by
  intro ms
  induction ms with
  | nil => intro acc hacc _ bi bd bt h; exact hacc bi bd bt h
  | cons q rest ih =>
    intro acc hacc hms bi bd bt h
    rw [List.foldl_cons] at h
    refine ih _ ?_ (fun p hp => hms p (List.mem_cons_of_mem _ hp)) bi bd bt h
    intro bi' bd' bt' h'
    by_cases hc : consensus ∈ q.1.ancestors true
    · rw [if_pos hc] at h'
      exact foldl_bestUpdate_bound q.2 acc hacc
        (hms q (List.mem_cons_self _ _)) bi' bd' bt' h'
    · rw [if_neg hc] at h'
      exact hacc bi' bd' bt' h'

theorem flatten_chunksOf_aux {α : Type} (n : Nat) (hn : n ≠ 0) :
    ∀ (k : Nat) (l : List α), l.length ≤ k → (chunksOf n l).flatten = l := by
  intro k
  induction k with
  | zero =>
    intro l hl
    have hnil : l = [] := List.length_eq_zero.mp (Nat.le_zero.mp hl)
    subst hnil
    rw [chunksOf, dif_pos (Or.inr List.length_nil)]
    rfl
  | succ k ih =>
    intro l hl
    rw [chunksOf]
    by_cases hcond : n = 0 ∨ l.length = 0
    · rw [dif_pos hcond]
      rcases hcond with h | h
      · exact absurd h hn
      · rw [List.length_eq_zero.mp h]
        rfl
    · rw [dif_neg hcond]
      push_neg at hcond
      rw [List.flatten_cons, ih (l.drop n) (by simp only [List.length_drop]; omega)]
      exact List.take_append_drop n l

/-- Chunking partitions the list: concatenating the chunks restores it. -/
theorem flatten_chunksOf {α : Type} {n : Nat} (hn : 0 < n) (l : List α) :
    (chunksOf n l).flatten = l :=
  flatten_chunksOf_aux n (by omega) l.length l (le_refl _)

theorem flatten_map_map {α β : Type} (f : α → β) :
    ∀ L : List (List α), (L.map (fun ch => ch.map f)).flatten = L.flatten.map f := by
  intro L
  induction L with
  | nil => rfl
  | cons ch rest ih =>
    rw [List.map_cons, List.flatten_cons, List.flatten_cons, List.map_append, ih]

theorem decodeLE_encodeLE (nb : Nat) : ∀ v : Nat, v < 256 ^ nb →
    decodeLE (encodeLE nb v) = v := by
  induction nb with
  | zero =>
    intro v hv
    simp only [pow_zero, Nat.lt_one_iff] at hv
    subst hv
    rfl
  | succ nb ih =>
    intro v hv
    rw [encodeLE, decodeLE, ih (v / 256) ?_]
    · exact Nat.mod_add_div v 256
    · rw [pow_succ, mul_comm] at hv
      exact Nat.div_lt_of_lt_mul hv

theorem decodeSig_encodeSig {nb : Nat} {s : List Nat}
    (hs : ∀ x ∈ s, x < 256 ^ nb) : decodeSig (encodeSig nb s) = s := by
  unfold decodeSig encodeSig
  rw [List.map_map]
  exact List.map_congr_left (fun x hx => decodeLE_encodeLE nb x (hs x hx)) |>.trans (List.map_id s)

/-! ## Claim theorems -/

/-- C1 (counterexample): on the input `[A, A1]`, where `A1` is a child of
`A`, `consensus_taxon` returns the consensus `A1`, which is not an
ancestor-or-self of the input taxon `A` — so the returned consensus is not
the lowest common ancestor of the inputs. -/
theorem consensus_taxon_not_lca_counterexample :
    (consensus_taxon [tA, tA1]).1 = some tA1 ∧ tA ∈ [tA, tA1] ∧
      tA1 ∉ tA.ancestors true := by decide

/-- C1 (amended): if `consensus_taxon` returns a non-`None` consensus with an
empty crown, all inputs lie on one lineage and the consensus is its lowest
element: it is one of the inputs, every input taxon is an ancestor-or-self of
it, and it is the lowest taxon below all the inputs (any taxon having every
input as an ancestor-or-self has the consensus as an ancestor-or-self). -/
theorem consensus_taxon_lowest_of_single_lineage (taxa : List Taxon) (c : Taxon)
    (hne : taxa ≠ []) (h : consensus_taxon taxa = (some c, [])) :
    c ∈ taxa ∧ (∀ t ∈ taxa, t ∈ c.ancestors true) ∧
      ∀ x : Taxon, (∀ t ∈ taxa, t ∈ x.ancestors true) → c ∈ x.ancestors true := by
  obtain ⟨hin, hall⟩ := consensus_taxon_lineage_aux hne h
  exact ⟨hin, hall, fun x hx => hx c hin⟩

theorem consensus_taxon_lowest_of_single_lineage_witness :
    ([tA, tA1] : List Taxon) ≠ [] ∧ consensus_taxon [tA, tA1] = (some tA1, []) ∧
      (tA1 ∈ [tA, tA1] ∧ (∀ t ∈ [tA, tA1], t ∈ tA1.ancestors true) ∧
        ∀ x : Taxon, (∀ t ∈ [tA, tA1], t ∈ x.ancestors true) → tA1 ∈ x.ancestors true) :=
  ⟨by decide, by decide,
    consensus_taxon_lowest_of_single_lineage [tA, tA1] tA1 (by decide) (by decide)⟩

/-- C2: for a non-empty input, the crown returned by `consensus_taxon` is
non-empty iff some pair of inputs is mutually inconsistent (neither is an
ancestor-or-self of the other); and whenever the consensus is `None`, the
crown equals the full input set. -/
theorem consensus_taxon_crown_spec (taxa : List Taxon) (hne : taxa ≠ []) :
    ((consensus_taxon taxa).2 ≠ [] ↔ IncompPair taxa) ∧
      ((consensus_taxon taxa).1 = none →
        ∀ t : Taxon, t ∈ (consensus_taxon taxa).2 ↔ t ∈ taxa) := by
  cases taxa with
  | nil => exact absurd rfl hne
  | cons t0 rest =>
    rcases hr : consensusLoop (t0 :: rest) (t0.ancestors true) rest [] with ⟨res, crownF⟩
    have hct : consensus_taxon (t0 :: rest) = (res, crownF) := by
      rw [consensus_taxon, hr]
    simp only [hct]
    constructor
    · constructor
      · intro hF
        exact consensusLoop_crown_ne_nil rest t0 [] res crownF
          (fun _ => List.mem_cons_self _ _) (fun hx => absurd rfl hx)
          (fun t ht => List.mem_cons_of_mem _ ht) hr hF
      · intro hpair hF
        rcases res with _ | c
        · have := consensusLoop_none rest t0 [] crownF hr
          rw [hF] at this
          exact hne (List.dedup_eq_nil _ |>.mp this.symm ▸ rfl) |>.elim
        · subst hF
          obtain ⟨hin, hall⟩ := consensus_taxon_lineage_aux hne hct
          obtain ⟨x, hx, y, hy, hnx, hny⟩ := hpair
          have hxs := mem_ancestorsSelf_iff.mp (hall x hx)
          have hys := mem_ancestorsSelf_iff.mp (hall y hy)
          rcases suffix_total hxs hys with h' | h'
          · exact hnx (mem_ancestorsSelf_iff.mpr h')
          · exact hny (mem_ancestorsSelf_iff.mpr h')
    · intro hres t
      rcases res with _ | c
      · have := consensusLoop_none rest t0 [] crownF hr
        rw [this]
        exact List.mem_dedup
      · simp at hres

theorem consensus_taxon_crown_spec_witness :
    ([tA1, tB] : List Taxon) ≠ [] ∧
      (((consensus_taxon [tA1, tB]).2 ≠ [] ↔ IncompPair [tA1, tB]) ∧
        ((consensus_taxon [tA1, tB]).1 = none →
          ∀ t : Taxon, t ∈ (consensus_taxon [tA1, tB]).2 ↔ t ∈ [tA1, tB])) :=
  ⟨by decide, consensus_taxon_crown_spec [tA1, tB] (by decide)⟩

/-- C4: in strict mode, when matches exist but the matched taxa share no
common ancestor (`consensus_taxon` returns `None`), `classify` does not
raise: it returns a `ClassifierResult` with `success = false`,
`predicted_taxon = none`, `primary_match = none` and the fatal error message
that the matched taxa share no common ancestor. -/
theorem classify_strict_disjoint_trees (refs : List AnnotatedGenome)
    (dists : List Rat) (hlen : refs.length = dists.length) (hne : dists ≠ [])
    (hms : find_matches (refs.zip dists) ≠ [])
    (hcons : (consensus_taxon ((find_matches (refs.zip dists)).map Prod.fst)).1 = none) :
    ∃ r : ClassifierResult, classify refs dists true = .ok r ∧
      r.success = false ∧ r.predicted_taxon = none ∧ r.primary_match = none ∧
      r.error = some "Matched taxa have no common ancestor." := by
  obtain ⟨i, hargmin⟩ := argmin_isSome hne
  obtain ⟨hilt, d, hd, -⟩ := argmin_spec hargmin
  have hig : i < refs.length := by rw [hlen]; exact hilt
  obtain ⟨g, hg⟩ : ∃ g, refs.get? i = some g := ⟨refs.get ⟨i, hig⟩, List.get?_eq_get hig⟩
  rw [classify, hargmin]
  dsimp only
  rw [hg, hd]
  dsimp only
  rw [if_neg (by simp : ¬(true = false)), if_neg (not_ne_iff.mpr hlen), if_neg hms, hcons]
  dsimp only
  rw [if_pos rfl]
  exact ⟨_, rfl, rfl, rfl, rfl, rfl⟩

theorem classify_strict_disjoint_trees_witness :
    ([g1, gB] : List AnnotatedGenome).length = ([5, 5] : List Rat).length ∧
      ([5, 5] : List Rat) ≠ [] ∧
      find_matches ([g1, gB].zip ([5, 5] : List Rat)) ≠ [] ∧
      (consensus_taxon ((find_matches ([g1, gB].zip ([5, 5] : List Rat))).map Prod.fst)).1
        = none ∧
      ∃ r : ClassifierResult, classify [g1, gB] [5, 5] true = .ok r ∧
        r.success = false ∧ r.predicted_taxon = none ∧ r.primary_match = none ∧
        r.error = some "Matched taxa have no common ancestor." :=
  ⟨by decide, by decide, by decide, by decide,
    classify_strict_disjoint_trees [g1, gB] [5, 5] (by decide) (by decide)
      (by decide) (by decide)⟩

/-- C3: in strict mode, whenever matches exist and `consensus_taxon` returns
a non-`None` consensus, at least one matched taxon has the consensus among
its ancestors-or-self, and `classify` completes without error — in
particular the `assert best_i is not None` never fires. -/
theorem classify_strict_consensus_reachable (refs : List AnnotatedGenome)
    (dists : List Rat) (c : Taxon) (hlen : refs.length = dists.length)
    (hne : dists ≠ [])
    (hms : find_matches (refs.zip dists) ≠ [])
    (hcons : (consensus_taxon ((find_matches (refs.zip dists)).map Prod.fst)).1 = some c) :
    (∃ t ∈ (find_matches (refs.zip dists)).map Prod.fst, c ∈ t.ancestors true) ∧
      ∃ r : ClassifierResult, classify refs dists true = .ok r := by
  have hreach : ∃ t ∈ (find_matches (refs.zip dists)).map Prod.fst, c ∈ t.ancestors true := by
    rcases hk : (find_matches (refs.zip dists)).map Prod.fst with _ | ⟨k0, krest⟩
    · exact absurd (List.map_eq_nil.mp hk) hms
    · rw [hk] at hcons
      rcases hr : consensusLoop (k0 :: krest) (k0.ancestors true) krest [] with ⟨res, crownF⟩
      rw [consensus_taxon, hr] at hcons
      dsimp only at hcons
      subst hcons
      exact consensusLoop_some_reaches krest k0 [] c crownF
        ⟨k0, List.mem_cons_self _ _, self_mem_ancestorsSelf k0⟩
        (fun t ht => List.mem_cons_of_mem _ ht) hr
  refine ⟨hreach, ?_⟩
  obtain ⟨i, hargmin⟩ := argmin_isSome hne
  obtain ⟨hilt, d, hd, -⟩ := argmin_spec hargmin
  have hig : i < refs.length := by rw [hlen]; exact hilt
  obtain ⟨g, hg⟩ : ∃ g, refs.get? i = some g := ⟨refs.get ⟨i, hig⟩, List.get?_eq_get hig⟩
  obtain ⟨t, ht, hct⟩ := hreach
  obtain ⟨p, hp, hpt⟩ := List.mem_map.mp ht
  have hsel : ∃ b, selectBest dists c (find_matches (refs.zip dists)) = some b := by
    refine Option.isSome_iff_exists.mp ?_
    refine selectBest_isSome (find_matches (refs.zip dists)) none (Or.inl ⟨p, hp, ?_, ?_⟩)
    · rw [hpt]; exact hct
    · exact (find_matches_spec _ p hp).1
  obtain ⟨⟨bi, bd, bt⟩, hsel⟩ := hsel
  have hbi : bi < refs.length := by
    have hb := selectBest_bound (N := refs.length) (find_matches (refs.zip dists)) none
      (by simp) ?_ bi bd bt hsel
    · exact hb
    · intro p' hp' j hj
      have := (find_matches_spec _ p' hp').2 j hj
      rw [List.length_zip, hlen, min_self] at this
      rw [hlen]
      exact this
  obtain ⟨gb, hgb⟩ : ∃ gb, refs.get? bi = some gb :=
    ⟨refs.get ⟨bi, hbi⟩, List.get?_eq_get hbi⟩
  rw [classify, hargmin]
  dsimp only
  rw [hg, hd]
  dsimp only
  rw [if_neg (by simp : ¬(true = false)), if_neg (not_ne_iff.mpr hlen), if_neg hms, hcons]
  dsimp only
  rw [hsel]
  dsimp only
  rw [hgb]
  dsimp only
  exact ⟨_, rfl⟩

theorem classify_strict_consensus_reachable_witness :
    ([g1, g2] : List AnnotatedGenome).length = ([5, 7] : List Rat).length ∧
      ([5, 7] : List Rat) ≠ [] ∧
      find_matches ([g1, g2].zip ([5, 7] : List Rat)) ≠ [] ∧
      (consensus_taxon ((find_matches ([g1, g2].zip ([5, 7] : List Rat))).map Prod.fst)).1
        = some tA ∧
      ((∃ t ∈ (find_matches ([g1, g2].zip ([5, 7] : List Rat))).map Prod.fst,
          tA ∈ t.ancestors true) ∧
        ∃ r : ClassifierResult, classify [g1, g2] [5, 7] true = .ok r) :=
  ⟨by decide, by decide, by decide, by decide,
    classify_strict_consensus_reachable [g1, g2] [5, 7] tA (by decide) (by decide)
      (by decide) (by decide)⟩

/-- C5: in non-strict mode on a non-empty reference list (with equal-length
distances), `classify` succeeds and bases everything on the minimum-distance
reference: `closest_match` is that reference, `predicted_taxon` is
`matching_taxon` of its taxon at its distance, and `primary_match` is the
closest match exactly when that taxon match exists. -/
theorem classify_nonstrict_closest (refs : List AnnotatedGenome) (dists : List Rat)
    (hlen : refs.length = dists.length) (hne : refs ≠ []) :
    ∃ i g d, argmin dists = some i ∧ refs.get? i = some g ∧ dists.get? i = some d ∧
      (∀ d' ∈ dists, d ≤ d') ∧
      classify refs dists false = .ok
        ⟨true, matching_taxon g.taxon d,
          if matching_taxon g.taxon d ≠ none then
            some ⟨g, d, matching_taxon g.taxon d⟩
          else none,
          ⟨g, d, matching_taxon g.taxon d⟩, [], none⟩ := by
  have hdne : dists ≠ [] := by
    intro h
    rw [h] at hlen
    exact hne (List.length_eq_zero.mp hlen)
  obtain ⟨i, hargmin⟩ := argmin_isSome hdne
  obtain ⟨hilt, d, hd, hmin⟩ := argmin_spec hargmin
  have hig : i < refs.length := by rw [hlen]; exact hilt
  obtain ⟨g, hg⟩ : ∃ g, refs.get? i = some g := ⟨refs.get ⟨i, hig⟩, List.get?_eq_get hig⟩
  refine ⟨i, g, d, hargmin, hg, hd, hmin, ?_⟩
  rw [classify, hargmin]
  dsimp only
  rw [hg, hd]
  dsimp only
  rw [if_pos rfl]

theorem classify_nonstrict_closest_witness :
    ([g1, g2] : List AnnotatedGenome).length = ([5, 7] : List Rat).length ∧
      ([g1, g2] : List AnnotatedGenome) ≠ [] ∧
      ∃ i g d, argmin ([5, 7] : List Rat) = some i ∧
        ([g1, g2] : List AnnotatedGenome).get? i = some g ∧
        ([5, 7] : List Rat).get? i = some d ∧
        (∀ d' ∈ ([5, 7] : List Rat), d ≤ d') ∧
        classify [g1, g2] [5, 7] false = .ok
          ⟨true, matching_taxon g.taxon d,
            if matching_taxon g.taxon d ≠ none then
              some ⟨g, d, matching_taxon g.taxon d⟩
            else none,
            ⟨g, d, matching_taxon g.taxon d⟩, [], none⟩ :=
  ⟨by decide, by decide,
    classify_nonstrict_closest [g1, g2] [5, 7] (by decide) (by decide)⟩

/-- C10: `classify` requires at least one reference genome — on empty inputs,
in both modes, the initial `np.argmin` computation raises and no
`ClassifierResult` is produced. -/
theorem classify_empty_refs_raises (strict : Bool) :
    classify [] [] strict =
      .error "ValueError: attempt to get argmin of an empty sequence" := by
  cases strict <;> rfl

/-- C6: the `matched_taxon` default of `GenomeMatch` as written in the source
passes the `AnnotatedGenome` object itself to `matching_taxon`, which
immediately evaluates `taxon.ancestors(...)` — an `AttributeError` at
runtime.  The intended computation, `matching_taxon` on the genome's assigned
taxon, evaluates to the genome's taxon or one of its ancestors (or none). -/
theorem genomeMatch_default_attribute_error (g : AnnotatedGenome) (d : Rat) :
    genomeMatchMatchedTaxonDefault g d =
      .error "AttributeError: AnnotatedGenome object has no attribute ancestors" ∧
      matching_taxon_dyn (.taxonObj g.taxon) d = .ok (matching_taxon g.taxon d) ∧
      ∀ t, matching_taxon g.taxon d = some t → t ∈ g.taxon.ancestors true := by
  refine ⟨rfl, rfl, ?_⟩
  intro t ht
  rw [matching_taxon] at ht
  exact List.mem_of_find?_eq_some ht

/-- C7: `jaccarddist_matrix` output is identical for every chunk size,
including no chunking — partitioning the reference axis never changes any
entry. -/
theorem jaccarddist_matrix_chunksize_invariant (queries refs : List (List Nat))
    (ref_indices : Option (List Nat)) (cs : Nat) (hcs : 0 < cs) :
    jaccarddist_matrix queries refs ref_indices (some cs) =
      jaccarddist_matrix queries refs ref_indices none := by
  unfold jaccarddist_matrix
  dsimp only
  refine List.map_congr_left (fun q hq => ?_)
  rw [flatten_map_map, flatten_chunksOf hcs]
  simp

theorem jaccarddist_matrix_chunksize_invariant_witness :
    0 < 2 ∧
      jaccarddist_matrix [[1, 2]] [[1, 2], [2, 3], [5]] none (some 2) =
        jaccarddist_matrix [[1, 2]] [[1, 2], [2, 3], [5]] none none :=
  ⟨by decide,
    jaccarddist_matrix_chunksize_invariant [[1, 2]] [[1, 2], [2, 3], [5]] none 2 (by decide)⟩

/-- C8: signatures storing the same logical k-mer sets at different integer
widths yield results exactly equal to the canonical computation on the
logical values, for the pairwise, array and matrix variants — values are
compared logically, never by byte pattern. -/
theorem jaccarddist_mixed_width_invariance
    (A B : List Nat) (w1 w2 : Nat) (queriesL refsL : List (List Nat))
    (hA : ∀ x ∈ A, x < 256 ^ w1) (hB : ∀ x ∈ B, x < 256 ^ w2)
    (hq : ∀ q ∈ queriesL, ∀ x ∈ q, x < 256 ^ w1)
    (hr : ∀ r ∈ refsL, ∀ x ∈ r, x < 256 ^ w2) :
    jaccarddistStored (encodeSig w1 A) (encodeSig w2 B) = jaccarddist A B ∧
      jaccarddist_array_stored (encodeSig w1 A) (refsL.map (encodeSig w2)) =
        jaccarddist_array A refsL ∧
      jaccarddist_matrix_stored (queriesL.map (encodeSig w1)) (refsL.map (encodeSig w2)) =
        jaccarddist_matrix queriesL refsL none none := by
  have hpair : ∀ (X Y : List Nat) (wx wy : Nat),
      (∀ x ∈ X, x < 256 ^ wx) → (∀ y ∈ Y, y < 256 ^ wy) →
      jaccarddistStored (encodeSig wx X) (encodeSig wy Y) = jaccarddist X Y := by
    intro X Y wx wy hX hY
    rw [jaccarddistStored, decodeSig_encodeSig hX, decodeSig_encodeSig hY]
  refine ⟨hpair A B w1 w2 hA hB, ?_, ?_⟩
  · rw [jaccarddist_array_stored, jaccarddist_array, List.map_map]
    exact List.map_congr_left (fun r hrr => hpair A r w1 w2 hA (hr r hrr))
  · unfold jaccarddist_matrix_stored jaccarddist_matrix
    dsimp only
    rw [List.map_map]
    refine List.map_congr_left (fun q hqq => ?_)
    dsimp only [Function.comp]
    rw [List.map_map]
    simp only [List.map_cons, List.map_nil, List.flatten_cons, List.flatten_nil,
      List.append_nil]
    refine List.map_congr_left (fun r hrr => ?_)
    dsimp only [Function.comp]
    exact hpair q r w1 w2 (hq q hqq) (hr r hrr)

theorem jaccarddist_mixed_width_invariance_witness :
    (∀ x ∈ [1, 300], x < 256 ^ 2) ∧ (∀ x ∈ [300, 70000], x < 256 ^ 4) ∧
      (∀ q ∈ [[1]], ∀ x ∈ q, x < 256 ^ 2) ∧ (∀ r ∈ [[300]], ∀ x ∈ r, x < 256 ^ 4) ∧
      (jaccarddistStored (encodeSig 2 [1, 300]) (encodeSig 4 [300, 70000]) =
          jaccarddist [1, 300] [300, 70000] ∧
        jaccarddist_array_stored (encodeSig 2 [1, 300]) ([[300]].map (encodeSig 4)) =
          jaccarddist_array [1, 300] [[300]] ∧
        jaccarddist_matrix_stored ([[1]].map (encodeSig 2)) ([[300]].map (encodeSig 4)) =
          jaccarddist_matrix [[1]] [[300]] none none) :=
  ⟨by decide, by decide, by decide, by decide,
    jaccarddist_mixed_width_invariance [1, 300] [300, 70000] 2 4 [[1]] [[300]]
      (by decide) (by decide) (by decide) (by decide)⟩

/-- C9: `jaccarddist` is the exact complement of `jaccard`: both are derived
from the same intersection/union counts and the identity
`jaccarddist(a, b) = 1 - jaccard(a, b)` holds exactly over the rationals,
not merely to floating tolerance. -/
theorem jaccarddist_eq_one_sub_jaccard (a b : List Nat) :
    jaccarddist a b = 1 - jaccard a b := by
  rw [jaccard]
  ring

end Gambit
